import Mathlib

/-!
Verification of `strandedness.py` (JulianneDavid/strandedness): a shallow
embedding of the strandedness inference engine — the sense classifier, the
primary-alignment selector, the per-group statistics aggregator, the
stratified spot sampler, the retry/backoff fetch loop, the failure log and
the fastq reshaper — together with theorems settling the specification's
claims about them.
-/

namespace Strandedness

/-- Python bit test `(n & 2^b) != 0` for arbitrary (possibly negative) ints,
using two's-complement semantics: bit `b` of `n` is set iff
`2^b ≤ n mod 2^(b+1)` (Euclidean mod, as Python's `%`). The source tests
flags with `flag & 1 == 1`, `flag & 16 == 16`, `flag & 64 == 64` and
`not flag & 1`, all of which are bit tests against power-of-two masks. -/
def flag_bit (n : Int) (b : Nat) : Bool :=
  decide ((2 : Int) ^ b ≤ n % 2 ^ (b + 1))

/-- `read_sense(SAM_flag, plus_or_minus)` from `strandedness.py` lines
230–250.  The Python takes the list produced by
`re.findall('XS:A:[+-]', entry)` and reads `plus_or_minus[0]`; every call
site guards that the list is non-empty, so the empty case (a Python
`IndexError`) is modelled with `headD ""` (never `"XS:A:+"`). -/
def read_sense (SAM_flag : Int) (plus_or_minus : List String) : Bool :=
  let fwd_gene := plus_or_minus.headD "" == "XS:A:+"
  let paired := flag_bit SAM_flag 0
  let rev_read := flag_bit SAM_flag 4
  let first_read := flag_bit SAM_flag 6
  (fwd_gene != rev_read) == (first_read || !paired)

/-- Value of a list of decimal digit characters. -/
def digits_val (cs : List Char) : Nat :=
  cs.foldl (fun a c => 10 * a + (c.toNat - 48)) 0

/-- A non-empty all-digit character list parses; anything else fails. -/
def parse_digits (cs : List Char) : Option Nat :=
  if cs ≠ [] ∧ cs.all Char.isDigit then some (digits_val cs) else none

/-- Python `int(s)` on a decimal string: an optional sign followed by at
least one digit; any other input raises `ValueError`, modelled as `none`. -/
def parse_int (s : String) : Option Int :=
  match s.data with
  | '-' :: rest => (parse_digits rest).map (fun n => -(n : Int))
  | '+' :: rest => (parse_digits rest).map (fun n => (n : Int))
  | cs => (parse_digits cs).map (fun n => (n : Int))

/-- Split a character list at every occurrence of `sep`, keeping empty
fields, exactly as Python `str.split(sep)` with an explicit separator. -/
def split_on_char (sep : Char) : List Char → List (List Char)
  | [] => [[]]
  | c :: rest =>
    let r := split_on_char sep rest
    if c = sep then [] :: r
    else
      match r with
      | [] => [[c]]
      | f :: fs => (c :: f) :: fs

/-- Python `s.split(sep)` for a one-character separator. -/
def py_split (s : String) (sep : Char) : List String :=
  (split_on_char sep s.data).map (fun cs => String.mk cs)

/-- Python `s[:n]` (character slice). -/
def str_take (s : String) (n : Nat) : String := String.mk (s.data.take n)

/-- Python `s[n:]` (character slice). -/
def str_drop (s : String) (n : Nat) : String := String.mk (s.data.drop n)

/-- `int(entry.split('\t')[1])`: the SAM flag field of a record, `none` when
the field is missing (`IndexError`) or non-numeric (`ValueError`). -/
def entry_flag (entry : String) : Option Int :=
  ((py_split entry '\t').get? 1).bind parse_int

/-- The inner loop of `filter_alignments` lines 203–206: for each tab field
of one record, if `tag[:5] == 'AS:i:'` then parse `int(tag[5:])` — a parse
failure is a Python `ValueError`, so the whole scan fails. Returns the
record's list of `AS:i:` scores in field order. -/
def entry_scores (entry : String) : Option (List Int) :=
  (py_split entry '\t').foldlM
    (fun acc tag =>
      if str_take tag 5 = "AS:i:" then
        (parse_int (str_drop tag 5)).map (acc ++ [·])
      else some acc)
    []

/-- Lines 202–206: `alignment_scores`, the concatenation of every record's
`AS:i:` scores over the whole group, in scan order. -/
def group_scores (alignments : List String) : Option (List Int) :=
  alignments.foldlM (fun acc e => (entry_scores e).map (acc ++ ·)) []

/-- Python `max` over a non-empty list (head taken as the seed). -/
def list_max (s : Int) (rest : List Int) : Int :=
  rest.foldl max s

/-- Lines 210–212: `[alignments[i] for i, score in enumerate(alignment_scores)
if score == max_alignment_score]`, where the index into `alignments` comes
from the position in the flat `alignment_scores` list (an out-of-range index
is a Python `IndexError`, modelled as `none`). -/
def primary_go (alignments : List String) (m : Int) :
    Nat → List Int → Option (List String)
  | _, [] => some []
  | i, sc :: rest =>
    if sc = m then do
      let e ← alignments.get? i
      let t ← primary_go alignments m (i + 1) rest
      pure (e :: t)
    else primary_go alignments m (i + 1) rest

/-- Lines 214–224, the paired-end branch of `filter_alignments`: with the
coin flip `first_reads` drawn for the group, scan the primary alignments in
order, `break` at the first record whose flag lacks the paired bit (bit 0),
and keep records whose first-mate bit (bit 6) matches the coin. -/
def select_mates (first_reads : Bool) : List String → Option (List String)
  | [] => some []
  | entry :: rest => do
    let flag ← entry_flag entry
    if !flag_bit flag 0 then pure []
    else do
      let tail ← select_mates first_reads rest
      if first_reads == flag_bit flag 6 then pure (entry :: tail)
      else pure tail

/-- `filter_alignments(alignments, paired_tag)` lines 175–227, with the
group's single `random.getrandbits(1)` coin flip passed explicitly as
`first_reads`. The Python `return 0` for a score-less group is the falsy
value the caller treats exactly like an empty list; it is modelled as
`some []`. Python exceptions (`ValueError` on an unparseable `AS:i:` or
flag field, `IndexError` on score/record misalignment) are `none`. -/
def filter_alignments (alignments : List String) (paired_tag : Bool)
    (first_reads : Bool) : Option (List String) := do
  let alignment_scores ← group_scores alignments
  match alignment_scores with
  | [] => pure []
  | s :: rest => do
    let max_alignment_score := list_max s rest
    let primary_alignments ←
      primary_go alignments max_alignment_score 0 (s :: rest)
    if paired_tag then select_mates first_reads primary_alignments
    else pure primary_alignments

/-- `re.findall('XS:A:[+-]', entry)` at line 361: left-to-right scan for the
six-character pattern, without overlap; on a match the scanner resumes after
the matched text. -/
def xs_scan : List Char → List String
  | 'X' :: 'S' :: ':' :: 'A' :: ':' :: '+' :: rest => "XS:A:+" :: xs_scan rest
  | 'X' :: 'S' :: ':' :: 'A' :: ':' :: '-' :: rest => "XS:A:-" :: xs_scan rest
  | _ :: rest => xs_scan rest
  | [] => []

/-- `XS_A = re.findall('XS:A:[+-]', entry)` applied to a whole record. -/
def find_XS_A (entry : String) : List String := xs_scan entry.data

/-- The four per-experiment counters of `__main__` lines 342–345: the
Python floats `weighted_sense`/`weighted_checked` are modelled with exact
rationals. -/
structure Stats where
  random_sense : Nat
  random_checked : Nat
  weighted_sense : ℚ
  weighted_checked : ℚ
deriving Repr, DecidableEq

/-- One iteration of the loop at lines 358–368 over a shuffled primary
alignment list. The pair's `Bool` is `one_read` (with `useful = True`, it
starts as `False` and becomes `True` after the group's single random draw).
A record whose flag field does not parse is a Python exception (`none`). -/
def process_entry (weight : ℚ) (s : Stats × Bool) (entry : String) :
    Option (Stats × Bool) := do
  let flag ← entry_flag entry
  let XS_A := find_XS_A entry
  match XS_A with
  | [] => pure s
  | _ :: _ =>
    let sense := read_sense flag XS_A
    let st := s.1
    let st := { st with
      weighted_sense := st.weighted_sense + (if sense then weight else 0),
      weighted_checked := st.weighted_checked + weight }
    if !s.2 then
      pure ({ st with
        random_sense := st.random_sense + (if sense then 1 else 0),
        random_checked := st.random_checked + 1 }, true)
    else pure (st, s.2)

/-- Lines 354–368: the aggregator's treatment of one (already shuffled)
non-empty primary alignment group.  `weight = 1 / float(len(primary))`; the
caller guarantees the list is non-empty (an empty list would be a Python
`ZeroDivisionError`). -/
def process_group (primary_alignments : List String) (st : Stats) :
    Option Stats := do
  let num_primaries : ℚ := (primary_alignments.length : ℚ)
  let weight : ℚ := 1 / num_primaries
  let r ← primary_alignments.foldlM (process_entry weight) (st, false)
  pure r.1

/-- Lines 82–95 of `get_hisat_input`: the stratified sampler's constants and
bin geometry (Python 2 `/` on non-negative ints is floor division). -/
def num_bins : Nat := 100

/-- `bin_spots = required * multiplier / num_bins`: the slice size. -/
def bin_spots (required multiplier : Nat) : Nat :=
  required * multiplier / num_bins

/-- `bin_size = total / num_bins`. -/
def bin_size (total : Nat) : Nat := total / num_bins

/-- `bin_start = (bin - 1) * bin_size + 1` for bin number `b ∈ [1, 100]`. -/
def bin_start (total b : Nat) : Nat := (b - 1) * bin_size total + 1

/-- `bin_stop = bin * bin_size`. -/
def bin_stop (total b : Nat) : Nat := b * bin_size total

/-- Lines 96–124: the per-bin download retry loop, as a function of an
oracle `succeeds` (does attempt `k` succeed?) and `elapsed` (the value of
`(datetime.now() - bin_start).total_seconds()` measured after failure `k`'s
sleep), with explicit fuel.  State: attempt counter, `delay`, `bin_time`.
Returns `(success?, waits performed, final bin_time)`; the `false` outcome
is the `while/else` branch that writes the failure log and raises
`TimeOut`.  `max_time = 300`; `delay` starts at 1 and is multiplied by
`back_off = 3` *before* each `sleep(delay)`. -/
def fetch_loop (succeeds : Nat → Bool) (elapsed : Nat → Nat) :
    Nat → Nat → Nat → Nat → Option (Bool × List Nat × Nat)
  | 0, _, _, _ => none
  | fuel + 1, attempt, delay, bin_time =>
    if bin_time ≤ 300 then
      if succeeds attempt then some (true, [], bin_time)
      else
        let d := delay * 3
        match fetch_loop succeeds elapsed fuel (attempt + 1) d
            (elapsed attempt) with
        | none => none
        | some (r, waits, t) => some (r, d :: waits, t)
    else some (false, [], bin_time)

/-- One bin's fetch, entered as the source does: `delay = 1`, `attempt = 1`,
`bin_time = 0`. -/
def fetch_bin (succeeds : Nat → Bool) (elapsed : Nat → Nat) (fuel : Nat) :
    Option (Bool × List Nat × Nat) :=
  fetch_loop succeeds elapsed fuel 1 1 0

/-- Line 119–120: on a timeout the failure log is reopened with
`open(fail_file, 'w')` — mode `'w'` truncates — and the single accession is
written; `previous` is the file's prior contents. -/
def write_fail_log (_previous : List String) (acc : String) : List String :=
  [acc]

/-- Line 128: `last_line = 4 * (pairedtag + 1)`. -/
def last_line (pairedtag : Bool) : Nat := 4 * (if pairedtag then 2 else 1)

/-- Lines 129–136: the reshaping loop over `fastq.split('\n')` with the
1-based `enumerate` index `i` and the pending `format_lines` accumulator. -/
def reshape_go (L : Nat) : Nat → List String → List String → List String
  | _, _, [] => []
  | i, fl, line :: rest =>
    let fl' := if i % 2 = 0 then fl ++ [line]
      else if (i - 1) % L = 0 then fl ++ [line]
      else fl
    if i % L = 0 then
      (String.intercalate "\t" fl' ++ "\n") :: reshape_go L (i + 1) [] rest
    else reshape_go L (i + 1) fl' rest

/-- Lines 126–136: reshape one raw fastq payload into hisat2 `-12` lines. -/
def reshape (pairedtag : Bool) (fastq : String) : List String :=
  reshape_go (last_line pairedtag) 1 [] (py_split fastq '\n')

/-- Modelled from the spec (§4.3): the complete leading record blocks of a
line list, each of exactly `L` lines; a truncated trailing block is
dropped. -/
def full_chunks (L : Nat) (l : List String) : List (List String) :=
  if _h : 0 < L ∧ L ≤ l.length then
    l.take L :: full_chunks L (l.drop L)
  else []
termination_by l.length
decreasing_by simp only [List.length_drop]; omega

/-- Modelled from the spec (§4.3): the fields the reshaper keeps from one
complete block — read name, mate-1 sequence, mate-1 quality and, when
paired, mate-2 sequence and mate-2 quality (block lines 1, 2, 4[, 6, 8]). -/
def block_fields (pairedtag : Bool) (c : List String) : List String :=
  if pairedtag then
    [c.getD 0 "", c.getD 1 "", c.getD 3 "", c.getD 5 "", c.getD 7 ""]
  else [c.getD 0 "", c.getD 1 "", c.getD 3 ""]

/-- Modelled from the spec (§4.3): the emitted tab-separated line for one
complete block. -/
def emit_block (pairedtag : Bool) (c : List String) : String :=
  String.intercalate "\t" (block_fields pairedtag c) ++ "\n"

/-- A record carries a strand tag iff `re.findall('XS:A:[+-]', entry)` is
non-empty (the aggregator's `if XS_A:` test at line 362). -/
def tagged (e : String) : Bool := !(find_XS_A e).isEmpty

/-- Number of strand-tagged records in a list. -/
def tagged_count (l : List String) : Nat := (l.filter tagged).length

/-- Line 296: `minimum_spots = 10000000`. -/
def minimum_spots : Nat := 10000000

/-- The observable actions of one main-loop iteration (lines 314–391). -/
inductive EngineEffect where
  | sampled (spot : Nat)
  | aligned
  | wrote_pvals (acc : String)
deriving Repr, DecidableEq

/-- Lines 314–318: the per-experiment guard — `if num_spots < minimum_spots:
continue` — with everything after the guard (sampling, alignment, statistics
and the two p-value writes) abstracted as the effect trace `pipeline`. -/
def process_experiment (num_spots : Nat) (pipeline : List EngineEffect) :
    List EngineEffect :=
  if num_spots < minimum_spots then [] else pipeline

/-- One reshaping step at an odd index that is neither a block head nor a
block end: the pending lines are unchanged. -/
theorem reshape_go_step_odd (L i : Nat) (fl : List String) (line : String)
    (rest : List String) (h2 : ¬ i % 2 = 0) (h3 : ¬ (i - 1) % L = 0)
    (h4 : ¬ i % L = 0) :
    reshape_go L i fl (line :: rest) = reshape_go L (i + 1) fl rest := by
  simp only [reshape_go]
  rw [if_neg h4, if_neg h2, if_neg h3]

/-- One reshaping step at a block head (odd, `(i-1) % L = 0`): the read
name line is kept. -/
theorem reshape_go_step_head (L i : Nat) (fl : List String) (line : String)
    (rest : List String) (h2 : ¬ i % 2 = 0) (h3 : (i - 1) % L = 0)
    (h4 : ¬ i % L = 0) :
    reshape_go L i fl (line :: rest) =
      reshape_go L (i + 1) (fl ++ [line]) rest := by
  simp only [reshape_go]
  rw [if_neg h4, if_neg h2, if_pos h3]

/-- One reshaping step at an even index that is not a block end: the line
(a sequence or quality line) is kept. -/
theorem reshape_go_step_even (L i : Nat) (fl : List String) (line : String)
    (rest : List String) (h2 : i % 2 = 0) (h4 : ¬ i % L = 0) :
    reshape_go L i fl (line :: rest) =
      reshape_go L (i + 1) (fl ++ [line]) rest := by
  simp only [reshape_go]
  rw [if_neg h4, if_pos h2]

/-- One reshaping step at a block end (even and `i % L = 0`): the pending
lines are emitted as one tab-separated output line. -/
theorem reshape_go_step_emit (L i : Nat) (fl : List String) (line : String)
    (rest : List String) (h2 : i % 2 = 0) (h4 : i % L = 0) :
    reshape_go L i fl (line :: rest) =
      (String.intercalate "\t" (fl ++ [line]) ++ "\n") ::
        reshape_go L (i + 1) [] rest := by
  simp only [reshape_go]
  rw [if_pos h4, if_pos h2]

end Strandedness

namespace Strandedness

/-- C1: `read_sense` is a total function of the flag and the present strand
tag; for every integer SAM flag and tag sign it returns
`((tag == "+") != (flag & 16 != 0)) == ((flag & 64 != 0) or not (flag & 1 != 0))`,
and in particular `read_sense(16,"-") = true`, `read_sense(0,"-") = false`,
`read_sense(16,"+") = false`, `read_sense(0,"+") = true` and
`read_sense(147,"+") = true`. -/
theorem c1_read_sense_formula :
    (∀ (flag : Int) (t : String) (rest : List String), t = "+" ∨ t = "-" →
      read_sense flag (("XS:A:" ++ t) :: rest) =
        (((t == "+") != flag_bit flag 4) ==
          (flag_bit flag 6 || !flag_bit flag 0))) ∧
    read_sense 16 ["XS:A:-"] = true ∧
    read_sense 0 ["XS:A:-"] = false ∧
    read_sense 16 ["XS:A:+"] = false ∧
    read_sense 0 ["XS:A:+"] = true ∧
    read_sense 147 ["XS:A:+"] = true := by
  refine ⟨?_, by decide, by decide, by decide, by decide, by decide⟩
  intro flag t rest ht
  rcases ht with rfl | rfl <;> rfl

/-- Witness for C1 at flag 147 and tag "+". -/
theorem c1_read_sense_formula_witness :
    read_sense 147 (("XS:A:" ++ "+") :: []) =
      (((("+" : String) == "+") != flag_bit 147 4) ==
        (flag_bit 147 6 || !flag_bit 147 0)) :=
  c1_read_sense_formula.1 147 "+" [] (Or.inl rfl)

/-- C8 (code bug): the failure log is reopened with mode `'w'` on every
timeout, so a second timed-out accession erases the first instead of being
appended after it: after failures for `SRR_A` then `SRR_B` the log holds
only `SRR_B`. -/
theorem c8_fail_log_truncates :
    write_fail_log (write_fail_log [] "SRR_A") "SRR_B" = ["SRR_B"] ∧
    "SRR_A" ∉ write_fail_log (write_fail_log [] "SRR_A") "SRR_B" := by
  constructor
  · rfl
  · simp [write_fail_log]

/-- C10: an experiment whose spot count is below `minimum_spots`
(10,000,000) is skipped entirely — the loop body after the guard (sampling,
alignment, p-value writes) produces no effect — while one at or above the
threshold runs the full pipeline. -/
theorem c10_minimum_spots_guard :
    (∀ (pipeline : List EngineEffect) (n : Nat), n < minimum_spots →
      process_experiment n pipeline = []) ∧
    (∀ (pipeline : List EngineEffect) (n : Nat), minimum_spots ≤ n →
      process_experiment n pipeline = pipeline) := by
  constructor
  · intro p n h
    simp only [process_experiment]
    rw [if_pos h]
  · intro p n h
    simp only [process_experiment]
    rw [if_neg (by omega)]

/-- Witness for C10 at 9,999,999 spots. -/
theorem c10_minimum_spots_guard_witness :
    process_experiment 9999999 [EngineEffect.aligned] = [] :=
  c10_minimum_spots_guard.1 [EngineEffect.aligned] 9999999 (by decide)

/-- In `fetch_loop`, the recorded waits starting from `delay` are
`delay * 3, delay * 9, delay * 27, ...`, and a `false` outcome (the
`while/else` timeout branch) is reached only with the final `bin_time`
above the 300-second budget. -/
theorem fetch_loop_shape (succeeds : Nat → Bool) (elapsed : Nat → Nat) :
    ∀ (fuel attempt delay bin_time : Nat) (r : Bool) (waits : List Nat)
      (tf : Nat),
      fetch_loop succeeds elapsed fuel attempt delay bin_time =
        some (r, waits, tf) →
      waits = (List.range waits.length).map (fun i => delay * 3 ^ (i + 1)) ∧
      (r = false → 300 < tf) := by
  intro fuel
  induction fuel with
  | zero => intro _ _ _ _ _ _ h; simp [fetch_loop] at h
  | succ fuel ih =>
    intro attempt delay bin_time r waits tf h
    rw [fetch_loop] at h
    by_cases ht : bin_time ≤ 300
    · rw [if_pos ht] at h
      by_cases hs : succeeds attempt
      · rw [if_pos hs] at h
        obtain ⟨rfl, rfl, rfl⟩ : true = r ∧ [] = waits ∧ bin_time = tf := by
          simpa using h
        simp
      · rw [if_neg hs] at h
        dsimp only at h
        rcases hrec : fetch_loop succeeds elapsed fuel (attempt + 1)
            (delay * 3) (elapsed attempt) with _ | ⟨r', waits', tf'⟩
        · rw [hrec] at h; simp at h
        · rw [hrec] at h
          obtain ⟨rfl, rfl, rfl⟩ :
              r' = r ∧ delay * 3 :: waits' = waits ∧ tf' = tf := by
            simpa using h
          obtain ⟨hw, hf⟩ := ih (attempt + 1) (delay * 3) (elapsed attempt)
            r' waits' tf' hrec
          refine ⟨?_, hf⟩
          rw [List.length_cons, List.range_succ_eq_map, List.map_cons]
          simp only [pow_one, List.map_map]
          conv_lhs => rw [hw]
          congr 1
          apply List.map_congr_left
          intro i _
          simp only [Function.comp_apply, Nat.succ_eq_add_one]
          ring
    · rw [if_neg ht] at h
      obtain ⟨rfl, rfl, rfl⟩ : false = r ∧ [] = waits ∧ bin_time = tf := by
        simpa using h
      exact ⟨by simp, fun _ => by omega⟩

/-- C7 (amended): entering the retry loop with `delay = 1`, the waits form
the sequence `3, 9, 27, ...` — the delay is tripled *before* every sleep,
so the wait before the first retry is 3 seconds, not 1 — and retrying stops
with a timeout only once the measured elapsed time exceeds the 300-second
budget. -/
theorem c7_backoff_amended (succeeds : Nat → Bool) (elapsed : Nat → Nat)
    (fuel : Nat) (r : Bool) (waits : List Nat) (tf : Nat)
    (h : fetch_bin succeeds elapsed fuel = some (r, waits, tf)) :
    waits = (List.range waits.length).map (fun i => 3 ^ (i + 1)) ∧
    (r = false → 300 < tf) := by
  obtain ⟨hw, hf⟩ := fetch_loop_shape succeeds elapsed fuel 1 1 0 r waits tf h
  refine ⟨?_, hf⟩
  conv_lhs => rw [hw]
  apply List.map_congr_left
  intro i _
  ring

/-- Witness for C7's amended statement: a run with every attempt failing
and the clock at 301 s after the first failure records the single wait 3
and times out with `bin_time = 301 > 300`. -/
theorem c7_backoff_amended_witness :
    ([3] : List Nat) = (List.range [3].length).map (fun i => 3 ^ (i + 1)) ∧
    (false = false → 300 < 301) :=
  c7_backoff_amended (fun _ => false) (fun _ => 301) 2 false [3] 301
    (by decide)

/-- An untagged record is one whose `re.findall` result is empty. -/
theorem find_XS_A_eq_nil_of_untagged {e : String} (h : tagged e = false) :
    find_XS_A e = [] := by
  simpa [tagged, List.isEmpty_iff] using h

/-- An untagged record leaves the aggregator state unchanged. -/
theorem process_entry_untagged (w : ℚ) (s : Stats × Bool) (e : String)
    (r : Stats × Bool) (h : process_entry w s e = some r)
    (ht : tagged e = false) : r = s := by
  simp only [process_entry, Option.bind_eq_some, bind, pure] at h
  obtain ⟨f, _, h2⟩ := h
  rw [find_XS_A_eq_nil_of_untagged ht] at h2
  simpa using h2.symm

/-- Any record moves the weighted "checked" accumulator by `w` when it is
strand-tagged and by `0` otherwise. -/
theorem process_entry_weighted_delta (w : ℚ) (s : Stats × Bool) (e : String)
    (r : Stats × Bool) (h : process_entry w s e = some r) :
    (r.1).weighted_checked = (s.1).weighted_checked +
      (if tagged e then w else 0) := by
  rcases ht : tagged e with _ | _
  · rw [process_entry_untagged w s e r h ht]; simp [ht]
  · have hx : ∃ x xs, find_XS_A e = x :: xs := by
      rcases hfa : find_XS_A e with _ | ⟨x, xs⟩
      · rw [tagged, hfa] at ht; simp at ht
      · exact ⟨x, xs, rfl⟩
    obtain ⟨x, xs, hfa⟩ := hx
    simp only [process_entry, Option.bind_eq_some, bind, pure] at h
    obtain ⟨f, _, h2⟩ := h
    rw [hfa] at h2
    rcases hb : s.2 with _ | _ <;> rw [hb] at h2
    · rw [if_pos (by decide)] at h2
      simp only [Option.some_inj] at h2
      subst h2
      simp [ht]
    · rw [if_neg (by decide)] at h2
      simp only [Option.some_inj] at h2
      subst h2
      simp [ht]

/-- A record's weighted "sense" contribution: `w` when it is tagged and its
sense verdict is true, `0` otherwise. -/
theorem process_entry_weighted_sense_delta (w : ℚ) (s : Stats × Bool)
    (e : String) (r : Stats × Bool) (h : process_entry w s e = some r)
    (ht : tagged e = true) :
    ∃ f, entry_flag e = some f ∧
      (r.1).weighted_sense = (s.1).weighted_sense +
        (if read_sense f (find_XS_A e) then w else 0) := by
  have hx : ∃ x xs, find_XS_A e = x :: xs := by
    rcases hfa : find_XS_A e with _ | ⟨x, xs⟩
    · rw [tagged, hfa] at ht; simp at ht
    · exact ⟨x, xs, rfl⟩
  obtain ⟨x, xs, hfa⟩ := hx
  simp only [process_entry, Option.bind_eq_some, bind, pure] at h
  obtain ⟨f, hf, h2⟩ := h
  refine ⟨f, hf, ?_⟩
  rw [hfa] at h2
  rw [hfa]
  rcases hb : s.2 with _ | _ <;> rw [hb] at h2
  · rw [if_pos (by decide)] at h2
    simp only [Option.some_inj] at h2
    subst h2
    simp
  · rw [if_neg (by decide)] at h2
    simp only [Option.some_inj] at h2
    subst h2
    simp

/-- Once `one_read` is `True`, the random-draw counters never move again. -/
theorem process_entry_keeps_random (w : ℚ) (st : Stats) (e : String)
    (r : Stats × Bool) (h : process_entry w (st, true) e = some r) :
    (r.1).random_checked = st.random_checked ∧
    (r.1).random_sense = st.random_sense ∧ r.2 = true := by
  rcases ht : tagged e with _ | _
  · rw [process_entry_untagged w (st, true) e r h ht]; simp
  · have hx : ∃ x xs, find_XS_A e = x :: xs := by
      rcases hfa : find_XS_A e with _ | ⟨x, xs⟩
      · rw [tagged, hfa] at ht; simp at ht
      · exact ⟨x, xs, rfl⟩
    obtain ⟨x, xs, hfa⟩ := hx
    simp only [process_entry, Option.bind_eq_some, bind, pure] at h
    obtain ⟨f, _, h2⟩ := h
    rw [hfa] at h2
    rw [if_neg (by decide)] at h2
    simp only [Option.some_inj] at h2
    subst h2
    simp

/-- A tagged record met while `one_read` is still `False` performs the
group's single random draw. -/
theorem process_entry_tagged_random (w : ℚ) (st : Stats) (e : String)
    (r : Stats × Bool) (h : process_entry w (st, false) e = some r)
    (ht : tagged e = true) :
    ∃ f, entry_flag e = some f ∧
      (r.1).random_checked = st.random_checked + 1 ∧
      (r.1).random_sense = st.random_sense +
        (if read_sense f (find_XS_A e) then 1 else 0) ∧
      r.2 = true := by
  have hx : ∃ x xs, find_XS_A e = x :: xs := by
    rcases hfa : find_XS_A e with _ | ⟨x, xs⟩
    · rw [tagged, hfa] at ht; simp at ht
    · exact ⟨x, xs, rfl⟩
  obtain ⟨x, xs, hfa⟩ := hx
  simp only [process_entry, Option.bind_eq_some, bind, pure] at h
  obtain ⟨f, hf, h2⟩ := h
  refine ⟨f, hf, ?_⟩
  rw [hfa] at h2
  rw [if_pos (by decide)] at h2
  simp only [Option.some_inj] at h2
  subst h2
  rw [hfa]
  simp

/-- Over a whole list, the weighted "checked" accumulator moves by exactly
`w` per tagged member. -/
theorem foldlM_weighted_delta (w : ℚ) :
    ∀ (l : List String) (s : Stats × Bool) (r : Stats × Bool),
      l.foldlM (process_entry w) s = some r →
      (r.1).weighted_checked = (s.1).weighted_checked +
        (tagged_count l : ℚ) * w := by
  intro l
  induction l with
  | nil =>
    intro s r h
    simp only [List.foldlM_nil, pure, Option.some_inj] at h
    subst h
    simp [tagged_count]
  | cons e tl ih =>
    intro s r h
    rw [List.foldlM_cons] at h
    simp only [bind, Option.bind_eq_some] at h
    obtain ⟨s1, hs1, hrest⟩ := h
    have hd := process_entry_weighted_delta w s e s1 hs1
    have ht := ih s1 r hrest
    rw [ht, hd]
    have hcount : (tagged_count (e :: tl) : ℚ) =
        (if tagged e then 1 else 0) + (tagged_count tl : ℚ) := by
      rcases hte : tagged e with _ | _
      · simp [tagged_count, List.filter, hte]
      · simp [tagged_count, List.filter, hte]
        ring
    rw [hcount]
    rcases hte : tagged e with _ | _
    · simp
    · simp
      ring

/-- Once the `one_read` flag is set, a whole fold leaves the random-draw
counters untouched. -/
theorem foldlM_random_frozen (w : ℚ) :
    ∀ (l : List String) (st : Stats) (r : Stats × Bool),
      l.foldlM (process_entry w) (st, true) = some r →
      (r.1).random_checked = st.random_checked ∧
      (r.1).random_sense = st.random_sense ∧ r.2 = true := by
  intro l
  induction l with
  | nil =>
    intro st r h
    simp only [List.foldlM_nil, pure, Option.some_inj] at h
    subst h
    simp
  | cons e tl ih =>
    intro st r h
    rw [List.foldlM_cons] at h
    simp only [bind, Option.bind_eq_some] at h
    obtain ⟨s1, hs1, hrest⟩ := h
    obtain ⟨h1, h2, h3⟩ := process_entry_keeps_random w st e s1 hs1
    obtain ⟨st1, b1⟩ := s1
    simp only at h1 h2 h3
    subst h3
    obtain ⟨g1, g2, g3⟩ := ih st1 r hrest
    exact ⟨by rw [g1, h1], by rw [g2, h2], g3⟩

/-- Starting with `one_read = False`, the fold draws exactly one random
observation, from the first tagged member — or none when no member is
tagged. -/
theorem foldlM_random_first (w : ℚ) :
    ∀ (l : List String) (st : Stats) (r : Stats × Bool),
      l.foldlM (process_entry w) (st, false) = some r →
      match l.find? tagged with
      | none => (r.1).random_checked = st.random_checked ∧
          (r.1).random_sense = st.random_sense ∧ r.2 = false
      | some e => ∃ f, entry_flag e = some f ∧
          (r.1).random_checked = st.random_checked + 1 ∧
          (r.1).random_sense = st.random_sense +
            (if read_sense f (find_XS_A e) then 1 else 0) := by
  intro l
  induction l with
  | nil =>
    intro st r h
    simp only [List.foldlM_nil, pure, Option.some_inj] at h
    subst h
    simp [List.find?]
  | cons e tl ih =>
    intro st r h
    rw [List.foldlM_cons] at h
    simp only [bind, Option.bind_eq_some] at h
    obtain ⟨s1, hs1, hrest⟩ := h
    rcases hte : tagged e with _ | _
    · rw [List.find?_cons_of_neg _ (by simp [hte])]
      have := process_entry_untagged w (st, false) e s1 hs1 hte
      subst this
      exact ih st r hrest
    · rw [List.find?_cons_of_pos _ hte]
      obtain ⟨f, hf, h1, h2, h3⟩ :=
        process_entry_tagged_random w st e s1 hs1 hte
      obtain ⟨st1, b1⟩ := s1
      simp only at h1 h2 h3
      subst h3
      obtain ⟨g1, g2, _⟩ := foldlM_random_frozen w tl st1 r hrest
      exact ⟨f, hf, by rw [g1, h1], by rw [g2, h2]⟩

/-- `process_group` is the fold of `process_entry` with weight
`1 / len(primary)`, projected to the statistics. -/
theorem process_group_eq (primary : List String) (st : Stats) :
    process_group primary st =
      (primary.foldlM (process_entry (1 / (primary.length : ℚ)))
        (st, false)).map (fun r => r.1) := by
  rcases hfold : primary.foldlM (process_entry (1 / (primary.length : ℚ)))
      (st, false) with _ | r
  · simp only [process_group, bind, hfold]
    rfl
  · simp only [process_group, bind, hfold]
    rfl

/-- The group-level weighted "checked" movement: `tagged_count / size`. -/
theorem process_group_weighted_checked (primary : List String)
    (st st' : Stats) (h : process_group primary st = some st') :
    st'.weighted_checked = st.weighted_checked +
      (tagged_count primary : ℚ) / (primary.length : ℚ) := by
  rw [process_group_eq] at h
  rcases hfold : primary.foldlM (process_entry (1 / (primary.length : ℚ)))
      (st, false) with _ | r
  · rw [hfold] at h; simp at h
  · rw [hfold] at h
    simp only [Option.map_some', Option.some_inj] at h
    subst h
    have := foldlM_weighted_delta (1 / (primary.length : ℚ)) primary
      (st, false) r hfold
    rw [this]
    ring

/-- C3 counterexample: a primary set of two records of which only one is
strand-tagged contributes `1/2` — not `1` — to the weighted "checked"
accumulator, and the tagged member's own contribution is `1/2`, not
`1/k = 1/1`: the weight is `1 / len(primary)`, not `1 / (tagged count)`. -/
theorem c3_weighted_counterexample :
    (process_group ["r\t0\tXS:A:+", "r\t0"] ⟨0, 0, 0, 0⟩).map
      Stats.weighted_checked = some (1 / 2 : ℚ) ∧
    tagged_count ["r\t0\tXS:A:+", "r\t0"] = 1 ∧
    ((1 : ℚ) / 2 ≠ 1) := by
  refine ⟨?_, rfl, by norm_num⟩
  have hsome : (process_group ["r\t0\tXS:A:+", "r\t0"]
      ⟨0, 0, 0, 0⟩).isSome = true := rfl
  obtain ⟨st', hp⟩ := Option.isSome_iff_exists.mp hsome
  rw [hp, Option.map_some', process_group_weighted_checked _ _ _ hp]
  norm_num [show tagged_count ["r\t0\tXS:A:+", "r\t0"] = 1 from rfl]

/-- C3 (amended): each strand-tagged member of a primary set of size `n`
contributes exactly `1/n` (not `1/k` with `k` the tagged count) to the
weighted "checked" accumulator and untagged members contribute nothing to
either weighted accumulator, so the group's total contribution is `k/n`;
it equals exactly 1 precisely in the all-tagged case. -/
theorem c3_weighted_amended :
    (∀ (primary : List String) (st : Stats),
      (process_group primary st).isSome = true →
      (process_group primary st).map Stats.weighted_checked =
        some (st.weighted_checked +
          (tagged_count primary : ℚ) / (primary.length : ℚ))) ∧
    (∀ (w : ℚ) (s : Stats × Bool) (e : String) (r : Stats × Bool),
      process_entry w s e = some r → tagged e = true →
      (r.1).weighted_checked = (s.1).weighted_checked + w) ∧
    (∀ (w : ℚ) (s : Stats × Bool) (e : String) (r : Stats × Bool),
      process_entry w s e = some r → tagged e = false → r = s) ∧
    (∀ (primary : List String) (st : Stats), primary ≠ [] →
      (∀ e ∈ primary, tagged e = true) →
      (process_group primary st).isSome = true →
      (process_group primary st).map Stats.weighted_checked =
        some (st.weighted_checked + 1)) := by
  refine ⟨?_, ?_, ?_, ?_⟩
  · intro primary st h
    obtain ⟨st', hp⟩ := Option.isSome_iff_exists.mp h
    rw [hp, Option.map_some', process_group_weighted_checked _ _ _ hp]
  · intro w s e r h ht
    rw [process_entry_weighted_delta w s e r h, if_pos ht]
  · intro w s e r h ht
    exact process_entry_untagged w s e r h ht
  · intro primary st hne hall h
    obtain ⟨st', hp⟩ := Option.isSome_iff_exists.mp h
    rw [hp, Option.map_some', process_group_weighted_checked _ _ _ hp]
    have hcount : tagged_count primary = primary.length := by
      rw [tagged_count, List.filter_eq_self.mpr hall]
    rw [hcount]
    have hlen : (primary.length : ℚ) ≠ 0 := by
      simp only [ne_eq, Nat.cast_eq_zero, List.length_eq_zero]
      exact hne
    rw [div_self hlen]

/-- Witness for C3's amended statement on a singleton tagged group. -/
theorem c3_weighted_amended_witness :
    (process_group ["r\t16\tXS:A:+"] ⟨0, 0, 0, 0⟩).map
      Stats.weighted_checked =
      some ((Stats.mk 0 0 0 0).weighted_checked +
        (tagged_count ["r\t16\tXS:A:+"] : ℚ) /
          ((["r\t16\tXS:A:+"] : List String).length : ℚ)) :=
  c3_weighted_amended.1 ["r\t16\tXS:A:+"] ⟨0, 0, 0, 0⟩ rfl

/-- C4: in the order the aggregator walks the (shuffled) primary set,
exactly the first strand-tagged member — if any — adds 1 to
`random_checked` and adds its sense verdict to `random_sense`; later tagged
members leave both random-draw counters untouched, and a group with no
tagged member leaves them unchanged. -/
theorem c4_random_draw (primary : List String) (st : Stats)
    (h : (process_group primary st).isSome = true) :
    (primary.find? tagged = none →
      (process_group primary st).map Stats.random_checked =
        some st.random_checked ∧
      (process_group primary st).map Stats.random_sense =
        some st.random_sense) ∧
    (∀ e, primary.find? tagged = some e →
      ∃ f, entry_flag e = some f ∧
        (process_group primary st).map Stats.random_checked =
          some (st.random_checked + 1) ∧
        (process_group primary st).map Stats.random_sense =
          some (st.random_sense +
            (if read_sense f (find_XS_A e) then 1 else 0))) := by
  obtain ⟨st', hp⟩ := Option.isSome_iff_exists.mp h
  have hpe := process_group_eq primary st
  rw [hpe] at hp
  have hfold : ∃ r, primary.foldlM
      (process_entry (1 / (primary.length : ℚ))) (st, false) = some r ∧
      r.1 = st' := by
    rcases hf2 : primary.foldlM
        (process_entry (1 / (primary.length : ℚ))) (st, false) with _ | r
    · rw [hf2] at hp; simp at hp
    · rw [hf2] at hp
      simp only [Option.map_some', Option.some_inj] at hp
      exact ⟨r, rfl, hp⟩
  obtain ⟨r, hf2, hr⟩ := hfold
  have hmain := foldlM_random_first (1 / (primary.length : ℚ))
    primary st r hf2
  constructor
  · intro hfind
    rw [hfind] at hmain
    obtain ⟨g1, g2, _⟩ := hmain
    rw [hpe, hf2]
    constructor
    · rw [Option.map_some', Option.map_some', g1]
    · rw [Option.map_some', Option.map_some', g2]
  · intro e hfind
    rw [hfind] at hmain
    obtain ⟨f, hf, g1, g2⟩ := hmain
    refine ⟨f, hf, ?_, ?_⟩
    · rw [hpe, hf2, Option.map_some', Option.map_some', g1]
    · rw [hpe, hf2, Option.map_some', Option.map_some', g2]

/-- Witness for C4: in a three-record group whose second and third records
are tagged, the second (the first tagged one) provides the single random
observation. -/
theorem c4_random_draw_witness :
    ∃ f, entry_flag "r\t16\tXS:A:+" = some f ∧
      (process_group ["r\t0", "r\t16\tXS:A:+", "r\t0\tXS:A:+"]
        ⟨0, 0, 0, 0⟩).map Stats.random_checked = some (0 + 1) ∧
      (process_group ["r\t0", "r\t16\tXS:A:+", "r\t0\tXS:A:+"]
        ⟨0, 0, 0, 0⟩).map Stats.random_sense =
        some (0 + (if read_sense f (find_XS_A "r\t16\tXS:A:+")
          then 1 else 0)) :=
  (c4_random_draw ["r\t0", "r\t16\tXS:A:+", "r\t0\tXS:A:+"]
    ⟨0, 0, 0, 0⟩ rfl).2 "r\t16\tXS:A:+" rfl

/-- The Python `max` of a non-empty list bounds the seed and every
element. -/
theorem list_max_ge :
    ∀ (rest : List Int) (s : Int), s ≤ list_max s rest ∧
      ∀ x ∈ rest, x ≤ list_max s rest := by
  intro rest
  induction rest with
  | nil => intro s; exact ⟨le_refl s, by simp⟩
  | cons a tl ih =>
    intro s
    have h := ih (max s a)
    have hstep : list_max s (a :: tl) = list_max (max s a) tl := rfl
    constructor
    · rw [hstep]; exact le_trans (le_max_left s a) h.1
    · intro x hx
      rcases List.mem_cons.mp hx with hx | hx
      · subst hx; rw [hstep]; exact le_trans (le_max_right s x) h.1
      · rw [hstep]; exact h.2 x hx

/-- Every record selected by the score comprehension comes from the input
list. -/
theorem primary_go_sub (AL : List String) (m : Int) :
    ∀ (scores : List Int) (i : Nat) (res : List String),
      primary_go AL m i scores = some res → res ⊆ AL := by
  intro scores
  induction scores with
  | nil =>
    intro i res h
    simp only [primary_go, Option.some_inj] at h
    subst h
    simp
  | cons sc rest ih =>
    intro i res h
    simp only [primary_go] at h
    by_cases hsc : sc = m
    · rw [if_pos hsc] at h
      simp only [bind, Option.bind_eq_some, pure, Option.some_inj] at h
      obtain ⟨a, ha, t, htail, hres⟩ := h
      subst hres
      intro x hx
      rcases List.mem_cons.mp hx with hx | hx
      · subst hx; exact List.get?_mem ha
      · exact ih (i + 1) t htail hx
    · rw [if_neg hsc] at h
      exact ih (i + 1) res h

/-- When every record of the group has an empty `AS:i:` score list, the
flat score scan returns the accumulator unchanged. -/
theorem group_scores_all_nil :
    ∀ (al : List String) (acc : List Int),
      (∀ e ∈ al, entry_scores e = some []) →
      al.foldlM (fun acc e => (entry_scores e).map (acc ++ ·)) acc =
        some acc := by
  intro al
  induction al with
  | nil => intro acc _; rfl
  | cons a tl ih =>
    intro acc h
    rw [List.foldlM_cons, h a (List.mem_cons_self a tl)]
    simp only [Option.map_some', List.append_nil, bind, Option.some_bind]
    exact ih acc fun x hx => h x (List.mem_cons_of_mem a hx)

/-- When every record carries exactly one parseable score, the flat score
list pairs up with the records positionally. -/
theorem group_scores_singletons :
    ∀ (al : List String) (acc : List Int),
      (∀ e ∈ al, ∃ v, entry_scores e = some [v]) →
      ∃ S, al.foldlM (fun acc e => (entry_scores e).map (acc ++ ·)) acc =
          some (acc ++ S) ∧ S.length = al.length ∧
          ∀ p ∈ al.zip S, entry_scores p.1 = some [p.2] := by
  intro al
  induction al with
  | nil =>
    intro acc _
    exact ⟨[], by simp [List.foldlM], by simp, by simp⟩
  | cons a tl ih =>
    intro acc h
    obtain ⟨v, hv⟩ := h a (List.mem_cons_self a tl)
    obtain ⟨S, hfold, hlen, hzip⟩ :=
      ih (acc ++ [v]) (fun x hx => h x (List.mem_cons_of_mem a hx))
    refine ⟨v :: S, ?_, by simp [hlen], ?_⟩
    · rw [List.foldlM_cons, hv]
      simp only [Option.map_some', bind, Option.some_bind]
      rw [hfold, List.append_assoc]
      rfl
    · intro p hp
      rcases List.mem_cons.mp hp with hp | hp
      · subst hp; exact hv
      · exact hzip p hp

/-- The comprehension `[alignments[i] for i, score in enumerate(scores) if
score == m]` when the score list is exactly as long as the record suffix:
each kept record is the one at the matching score's position. -/
theorem primary_go_filter (AL : List String) (m : Int) :
    ∀ (scores : List Int) (i : Nat), AL.length = i + scores.length →
      primary_go AL m i scores = some
        (((AL.drop i).zip scores).filterMap
          (fun p => if p.2 = m then some p.1 else none)) := by
  intro scores
  induction scores with
  | nil =>
    intro i _
    simp [primary_go]
  | cons sc rest ih =>
    intro i hlen
    rw [List.length_cons] at hlen
    have hlt : i < AL.length := by omega
    have hget : AL.get? i = some (AL.get ⟨i, hlt⟩) := List.get?_eq_get hlt
    have hdrop : AL.drop i = AL.get ⟨i, hlt⟩ :: AL.drop (i + 1) := by
      rw [List.drop_eq_getElem_cons hlt]
      rfl
    have hrec := ih (i + 1) (by omega)
    simp only [primary_go]
    by_cases hsc : sc = m
    · subst hsc
      rw [if_pos rfl]
      simp only [bind, hget, Option.some_bind, hrec, Option.bind_some, pure,
        Option.some_inj]
      rw [hdrop, List.zip_cons_cons, List.filterMap_cons]
      dsimp only
      rw [if_pos rfl]
    · rw [if_neg hsc, hrec, hdrop, List.zip_cons_cons, List.filterMap_cons]
      dsimp only
      rw [if_neg hsc]

/-- Positional pairing: any member of the left list of an equal-length zip
appears as a first component. -/
theorem exists_zip_pair :
    ∀ (l1 : List String) (l2 : List Int), l1.length = l2.length →
      ∀ a ∈ l1, ∃ b, (a, b) ∈ l1.zip l2 := by
  intro l1
  induction l1 with
  | nil => intro l2 _ a ha; simp at ha
  | cons x t ih =>
    intro l2 hlen a ha
    rcases l2 with _ | ⟨y, t2⟩
    · simp at hlen
    · rcases List.mem_cons.mp ha with ha | ha
      · subst ha; exact ⟨y, by simp⟩
      · obtain ⟨b, hb⟩ := ih t2 (by simpa using hlen) a ha
        exact ⟨b, by simp [hb]⟩

/-- Every record kept by the mate-selection scan comes from the input,
parses to a flag with the paired bit set, and has a first-mate bit equal to
the group's coin flip. -/
theorem select_mates_mem (c : Bool) :
    ∀ (l res : List String), select_mates c l = some res →
      ∀ e ∈ res, e ∈ l ∧ ∃ f, entry_flag e = some f ∧
        flag_bit f 0 = true ∧ flag_bit f 6 = c := by
  intro l
  induction l with
  | nil =>
    intro res h e he
    simp only [select_mates, Option.some_inj] at h
    subst h
    simp at he
  | cons a tl ih =>
    intro res h e he
    simp only [select_mates, bind, Option.bind_eq_some] at h
    obtain ⟨f, hf, h2⟩ := h
    rcases hb : flag_bit f 0 with _ | _
    · rw [hb] at h2
      rw [if_pos (by decide)] at h2
      simp only [pure, Option.some_inj] at h2
      subst h2
      simp at he
    · rw [hb] at h2
      rw [if_neg (by decide)] at h2
      simp only [bind, Option.bind_eq_some] at h2
      obtain ⟨tail, htail, h3⟩ := h2
      rcases hc : c == flag_bit f 6 with _ | _
      · rw [hc] at h3
        rw [if_neg (by decide)] at h3
        simp only [pure, Option.some_inj] at h3
        subst h3
        obtain ⟨hmem, hrest⟩ := ih tail htail e he
        exact ⟨List.mem_cons_of_mem a hmem, hrest⟩
      · rw [hc] at h3
        rw [if_pos (by decide)] at h3
        simp only [pure, Option.some_inj] at h3
        subst h3
        rcases List.mem_cons.mp he with he | he
        · subst he
          exact ⟨List.mem_cons_self e tl,
            ⟨f, hf, hb, (beq_iff_eq.mp hc).symm⟩⟩
        · obtain ⟨hmem, hrest⟩ := ih tail htail e he
          exact ⟨List.mem_cons_of_mem a hmem, hrest⟩

/-- The mate-selection scan stops at the first record without the paired
bit: anything after it, even malformed, is ignored. -/
theorem select_mates_stop (c : Bool) :
    ∀ (p : List String) (e : String) (t : List String),
      (∀ a ∈ p, ∃ f, entry_flag a = some f ∧ flag_bit f 0 = true) →
      (∃ f, entry_flag e = some f ∧ flag_bit f 0 = false) →
      select_mates c (p ++ e :: t) = select_mates c p := by
  intro p
  induction p with
  | nil =>
    intro e t _ hune
    obtain ⟨f, hf, hb⟩ := hune
    simp [select_mates, hf, hb]
  | cons a p ih =>
    intro e t hall hune
    obtain ⟨f, hf, hb⟩ := hall a (List.mem_cons_self a p)
    have ihe := ih e t (fun x hx => hall x (List.mem_cons_of_mem a hx)) hune
    simp only [List.cons_append, select_mates, hf, hb, bind, List.append_eq]
    rw [ihe]

/-- Once a record's `AS:i:` scan fails (a malformed tag, Python
`ValueError`), the whole group's flat score scan fails. -/
theorem group_scores_has_none :
    ∀ (al : List String) (acc : List Int),
      (∃ e ∈ al, entry_scores e = none) →
      al.foldlM (fun acc e => (entry_scores e).map (acc ++ ·)) acc =
        none := by
  intro al
  induction al with
  | nil =>
    intro acc h
    obtain ⟨e, he, _⟩ := h
    simp at he
  | cons a tl ih =>
    intro acc h
    rw [List.foldlM_cons]
    rcases ha : entry_scores a with _ | sa
    · simp [ha]
    · simp only [ha, Option.map_some', bind, Option.some_bind]
      obtain ⟨e, he, hnone⟩ := h
      rcases List.mem_cons.mp he with rfl | he2
      · rw [ha] at hnone
        exact absurd hnone (by simp)
      · exact ih _ ⟨e, he2, hnone⟩

/-- C2 counterexample, two concrete failures of the claim as stated.
First, in a group whose first record has no `AS:i:` tag, the flat score
list misaligns with the record list and the returned "PrimarySet" is the
score-less first record — a member that does not carry the group's
maximum score (5), or any score at all. Second, a group whose only record
carries a malformed `AS:i:` tag has no parseable score, yet does not
yield an empty PrimarySet: `int('xy')` raises `ValueError` (modelled
`none`), aborting the run instead of discarding the group. -/
theorem c2_primary_counterexample :
    filter_alignments ["r\t0\tZZ", "r\t0\tAS:i:5"] false false =
      some ["r\t0\tZZ"] ∧
    entry_scores "r\t0\tZZ" = some [] ∧
    entry_scores "r\t0\tAS:i:5" = some [5] ∧
    filter_alignments ["r\t0\tAS:i:xy"] false false = none ∧
    entry_scores "r\t0\tAS:i:xy" = none := by
  refine ⟨by decide, by decide, by decide, by decide, by decide⟩

/-- C2 (amended): in both single-end and paired-end mode, the returned set
is a subset of the input group; a group in which no record carries any
`AS:i:` tag yields an empty result; a group in which no record has a
parseable `AS:i:` score never yields a non-empty result — it yields the
empty set, or fails on a malformed tag (`ValueError`); and whenever every
record carries exactly one parseable `AS:i:` score — the alignment of
scores to records the comprehension relies on — every returned member's
own score equals the group's maximum, with the selection guaranteed to
succeed in single-end mode. -/
theorem c2_primary_selection :
    (∀ (al : List String) (paired c : Bool) (res : List String),
      filter_alignments al paired c = some res → res ⊆ al) ∧
    (∀ (al : List String) (paired c : Bool),
      (∀ e ∈ al, entry_scores e = some []) →
      filter_alignments al paired c = some []) ∧
    (∀ (al : List String) (paired c : Bool),
      (∀ e ∈ al, entry_scores e = some [] ∨ entry_scores e = none) →
      filter_alignments al paired c = some [] ∨
        filter_alignments al paired c = none) ∧
    (∀ (al : List String) (paired c : Bool) (res : List String),
      (∀ e ∈ al, ∃ v, entry_scores e = some [v]) →
      filter_alignments al paired c = some res →
      ∀ e ∈ res, ∃ v, entry_scores e = some [v] ∧
        ∀ e' v', e' ∈ al → entry_scores e' = some [v'] → v' ≤ v) ∧
    (∀ (al : List String) (c : Bool),
      (∀ e ∈ al, ∃ v, entry_scores e = some [v]) →
      ∃ res, filter_alignments al false c = some res) := by
  have hempty : ∀ (al : List String) (paired c : Bool),
      (∀ e ∈ al, entry_scores e = some []) →
      filter_alignments al paired c = some [] := by
    intro al paired c h
    have hgs : group_scores al = some [] := group_scores_all_nil al [] h
    simp only [filter_alignments, hgs, bind, Option.some_bind]
    rfl
  refine ⟨?_, hempty, ?_, ?_, ?_⟩
  · intro al paired c res h
    simp only [filter_alignments, bind, Option.bind_eq_some] at h
    obtain ⟨S, _, h2⟩ := h
    rcases S with _ | ⟨s, rest⟩
    · simp only [pure, Option.some_inj] at h2
      subst h2
      simp
    · simp only [bind, Option.bind_eq_some] at h2
      obtain ⟨prim, hprim, h3⟩ := h2
      have hsub := primary_go_sub al (list_max s rest) (s :: rest) 0 prim hprim
      rcases paired with _ | _
      · rw [if_neg (by decide)] at h3
        simp only [pure, Option.some_inj] at h3
        subst h3
        exact hsub
      · rw [if_pos rfl] at h3
        intro e he
        exact hsub ((select_mates_mem c prim res h3 e he).1)
  · intro al paired c h
    by_cases hall : ∀ e ∈ al, entry_scores e = some []
    · exact Or.inl (hempty al paired c hall)
    · right
      push_neg at hall
      obtain ⟨e0, he0, hne⟩ := hall
      have hnone : entry_scores e0 = none := by
        rcases h e0 he0 with h1 | h1
        · exact absurd h1 hne
        · exact h1
      have hgs : group_scores al = none :=
        group_scores_has_none al [] ⟨e0, he0, hnone⟩
      simp [filter_alignments, hgs]
  · intro al paired c res h hres e he
    obtain ⟨S2, hfold, hlen, hzip⟩ := group_scores_singletons al [] h
    have hgs : group_scores al = some S2 := by
      rw [group_scores, hfold]
      simp
    simp only [filter_alignments, bind, Option.bind_eq_some] at hres
    obtain ⟨S, hgs0, h2⟩ := hres
    rw [hgs] at hgs0
    simp only [Option.some_inj] at hgs0
    subst hgs0
    rcases S2 with _ | ⟨s, rest⟩
    · simp only [pure, Option.some_inj] at h2
      subst h2
      simp at he
    · simp only [bind, Option.bind_eq_some] at h2
      obtain ⟨prim, hprim, h3⟩ := h2
      have hlen2 : al.length = 0 + (s :: rest).length := by
        simp [← hlen]
      have hpg := primary_go_filter al (list_max s rest) (s :: rest) 0 hlen2
      rw [List.drop_zero] at hpg
      rw [hpg] at hprim
      simp only [Option.some_inj] at hprim
      have hmax : ∀ x, x ∈ ((al.zip (s :: rest)).filterMap
          (fun p => if p.2 = list_max s rest then some p.1 else none)) →
          ∃ v, entry_scores x = some [v] ∧
            ∀ e' v', e' ∈ al → entry_scores e' = some [v'] → v' ≤ v := by
        intro x hx
        obtain ⟨⟨e', v⟩, hmem, hcond⟩ := List.mem_filterMap.mp hx
        dsimp only at hcond
        by_cases hv : v = list_max s rest
        · rw [if_pos hv] at hcond
          simp only [Option.some_inj] at hcond
          subst hcond
          subst hv
          refine ⟨_, hzip _ hmem, ?_⟩
          intro e2 v2 he2 hv2
          obtain ⟨w, hw⟩ := exists_zip_pair al (s :: rest) hlen.symm e2 he2
          have hzw := hzip _ hw
          rw [hv2] at hzw
          simp only [Option.some_inj, List.cons.injEq, and_true] at hzw
          subst hzw
          have hwmem := (List.of_mem_zip hw).2
          rcases List.mem_cons.mp hwmem with hws | hwr
          · subst hws; exact (list_max_ge rest v2).1
          · exact (list_max_ge rest s).2 v2 hwr
        · rw [if_neg hv] at hcond
          simp at hcond
      subst hprim
      rcases paired with _ | _
      · rw [if_neg (by decide)] at h3
        simp only [pure, Option.some_inj] at h3
        subst h3
        exact hmax e he
      · rw [if_pos rfl] at h3
        exact hmax e ((select_mates_mem c _ res h3 e he).1)
  · intro al c h
    obtain ⟨S, hfold, hlen, hzip⟩ := group_scores_singletons al [] h
    have hgs : group_scores al = some S := by
      rw [group_scores, hfold]
      simp
    rcases hS : S with _ | ⟨s, rest⟩
    · subst hS
      have hal : al = [] := List.length_eq_zero.mp (by simpa using hlen.symm)
      subst hal
      exact ⟨[], rfl⟩
    · subst hS
      have hlen2 : al.length = 0 + (s :: rest).length := by
        simp [← hlen]
      have hpg := primary_go_filter al (list_max s rest) (s :: rest) 0 hlen2
      refine ⟨(al.zip (s :: rest)).filterMap
          (fun p => if p.2 = list_max s rest then some p.1 else none), ?_⟩
      simp only [filter_alignments, hgs, bind, Option.some_bind]
      rw [hpg]
      simp only [Option.some_bind]
      rw [if_neg (by decide)]
      rfl

/-- Witness for C2's amended statement on a well-formed paired-end group
(flags 83 and 147, both scores 7): the mate filter keeps the flag-147
record, and its score is the group maximum. -/
theorem c2_primary_selection_witness :
    ∀ e ∈ ["r\t147\tAS:i:7"], ∃ v, entry_scores e = some [v] ∧
      ∀ e' v', e' ∈ ["r\t83\tAS:i:7", "r\t147\tAS:i:7"] →
        entry_scores e' = some [v'] → v' ≤ v :=
  c2_primary_selection.2.2.2.1 ["r\t83\tAS:i:7", "r\t147\tAS:i:7"] true false
    ["r\t147\tAS:i:7"]
    (by
      intro e he
      rcases List.mem_cons.mp he with rfl | he2
      · exact ⟨7, rfl⟩
      · rcases List.mem_cons.mp he2 with rfl | he3
        · exact ⟨7, rfl⟩
        · simp at he3)
    (by decide)

/-- C5: for every paired-end group, each record in the filtered result has
a parsed flag with the paired bit set and a first-mate bit equal to the
group's single coin flip; and the scan over the maximal-score records stops
at the first record whose flag lacks the paired bit, ignoring everything
after it. -/
theorem c5_mate_resolution :
    (∀ (al : List String) (c : Bool) (res : List String),
      filter_alignments al true c = some res →
      ∀ e ∈ res, ∃ f, entry_flag e = some f ∧ flag_bit f 0 = true ∧
        flag_bit f 6 = c) ∧
    (∀ (c : Bool) (p : List String) (e : String) (t : List String),
      (∀ a ∈ p, ∃ f, entry_flag a = some f ∧ flag_bit f 0 = true) →
      (∃ f, entry_flag e = some f ∧ flag_bit f 0 = false) →
      select_mates c (p ++ e :: t) = select_mates c p) := by
  constructor
  · intro al c res h e he
    simp only [filter_alignments, bind, Option.bind_eq_some] at h
    obtain ⟨S, _, h2⟩ := h
    rcases S with _ | ⟨s, rest⟩
    · simp only [pure, Option.some_inj] at h2
      subst h2
      simp at he
    · simp only [bind, Option.bind_eq_some] at h2
      obtain ⟨prim, _, h3⟩ := h2
      rw [if_pos trivial] at h3
      exact (select_mates_mem c prim res h3 e he).2
  · exact fun c p e t hall hune => select_mates_stop c p e t hall hune

/-- Witness for C5 on a two-record paired group with flags 83 and 147:
with the coin preferring second mates, the single kept record's flag (147)
has the paired bit and its first-mate bit matches the coin. -/
theorem c5_mate_resolution_witness :
    ∃ f, entry_flag "r\t147\tAS:i:7" = some f ∧ flag_bit f 0 = true ∧
      flag_bit f 6 = false :=
  c5_mate_resolution.1 ["r\t83\tAS:i:7", "r\t147\tAS:i:7"] false
    ["r\t147\tAS:i:7"] (by decide) "r\t147\tAS:i:7" (by simp)

/-- C6 counterexample: with `T = 150` the bins are `[1,1], ..., [100,100]`
(`bin_size = 150 / 100 = 1`), so spot 150 — inside `[1, T]` — lies in no
bin: the sampler does not partition `[1, T]` when `100 ∤ T`. -/
theorem c6_sampler_counterexample :
    ((List.range num_bins).filter
      (fun i => decide (bin_start 150 (i + 1) ≤ 150 ∧
        150 ≤ bin_stop 150 (i + 1)))) = [] ∧
    1 ≤ 150 ∧ 150 ≤ 150 := by
  refine ⟨?_, by decide, by decide⟩
  decide

/-- C6 (amended): the 100 bins are equal-width, contiguous and pairwise
non-overlapping, and they partition `[1, 100 * (T / 100)]` — the trailing
`T mod 100` spots are in no bin; a slice start drawn from
`[bin_start, bin_stop - slice_size]` keeps the whole slice
`[start, start + slice_size]` inside its bin's bounds. -/
theorem c6_sampler_amended (total spots b : Nat) (hb1 : 1 ≤ b)
    (hb2 : b ≤ num_bins) :
    (bin_stop total b + 1 - bin_start total b = bin_size total) ∧
    (b < num_bins → bin_start total (b + 1) = bin_stop total b + 1) ∧
    (∀ b' s, b < b' → b' ≤ num_bins → bin_start total b ≤ s →
      s ≤ bin_stop total b →
      ¬(bin_start total b' ≤ s ∧ s ≤ bin_stop total b')) ∧
    (∀ s, 1 ≤ s → s ≤ num_bins * bin_size total →
      ∃ c, 1 ≤ c ∧ c ≤ num_bins ∧ bin_start total c ≤ s ∧
        s ≤ bin_stop total c) ∧
    (∀ s, bin_start total b ≤ s → s ≤ bin_stop total b - spots →
      bin_start total b ≤ s ∧ s + spots ≤ bin_stop total b) := by
  obtain ⟨b0, rfl⟩ : ∃ b0, b = b0 + 1 := ⟨b - 1, by omega⟩
  refine ⟨?_, ?_, ?_, ?_, ?_⟩
  · simp only [bin_start, bin_stop, Nat.add_sub_cancel, Nat.succ_mul]
    generalize b0 * bin_size total = w
    omega
  · intro _
    simp only [bin_start, bin_stop, Nat.add_sub_cancel]
  · intro b' s hbb' _ h1 h2 h3
    obtain ⟨h3a, _⟩ := h3
    simp only [bin_start, bin_stop] at h1 h2 h3a
    have key : (b0 + 1) * bin_size total ≤ (b' - 1) * bin_size total :=
      Nat.mul_le_mul_right _ (by omega)
    generalize (b0 + 1) * bin_size total = A at h2 key
    generalize (b' - 1) * bin_size total = B at h3a key
    omega
  · intro s hs1 hs2
    simp only [num_bins] at hs2 ⊢
    rcases Nat.eq_zero_or_pos (bin_size total) with hz0 | hz
    · rw [hz0, Nat.mul_zero] at hs2; omega
    · have hdm := Nat.div_add_mod (s - 1) (bin_size total)
      have hmod := Nat.mod_lt (s - 1) hz
      have key : (s - 1) / bin_size total ≤ 99 := by
        by_contra hq
        have h100 : 100 ≤ (s - 1) / bin_size total := by omega
        have hmul : 100 * bin_size total ≤
            ((s - 1) / bin_size total) * bin_size total :=
          Nat.mul_le_mul_right _ h100
        have hle : ((s - 1) / bin_size total) * bin_size total ≤ s - 1 :=
          Nat.div_mul_le_self _ _
        generalize 100 * bin_size total = A at hs2 hmul
        generalize ((s - 1) / bin_size total) * bin_size total = B at hmul hle
        omega
      rw [Nat.mul_comm] at hdm
      generalize hq : (s - 1) / bin_size total = q at key hdm
      refine ⟨q + 1, by omega, by omega, ?_, ?_⟩
      · simp only [bin_start, Nat.add_sub_cancel]
        generalize q * bin_size total = w at hdm ⊢
        omega
      · simp only [bin_stop, Nat.succ_mul]
        generalize q * bin_size total = w at hdm ⊢
        generalize (s - 1) % bin_size total = mv at hdm hmod
        omega
  · intro s h1 h2
    refine ⟨h1, ?_⟩
    simp only [bin_start, bin_stop, Nat.add_sub_cancel] at h1 h2 ⊢
    generalize b0 * bin_size total = A at h1
    generalize (b0 + 1) * bin_size total = B at h2 ⊢
    omega

/-- Witness for C6's amended statement at `T = 1000`, slice size 5,
bin 7. -/
theorem c6_sampler_amended_witness :
    (bin_stop 1000 7 + 1 - bin_start 1000 7 = bin_size 1000) ∧
    (7 < num_bins → bin_start 1000 (7 + 1) = bin_stop 1000 7 + 1) ∧
    (∀ b' s, 7 < b' → b' ≤ num_bins → bin_start 1000 7 ≤ s →
      s ≤ bin_stop 1000 7 →
      ¬(bin_start 1000 b' ≤ s ∧ s ≤ bin_stop 1000 b')) ∧
    (∀ s, 1 ≤ s → s ≤ num_bins * bin_size 1000 →
      ∃ c, 1 ≤ c ∧ c ≤ num_bins ∧ bin_start 1000 c ≤ s ∧
        s ≤ bin_stop 1000 c) ∧
    (∀ s, bin_start 1000 7 ≤ s → s ≤ bin_stop 1000 7 - 5 →
      bin_start 1000 7 ≤ s ∧ s + 5 ≤ bin_stop 1000 7) :=
  c6_sampler_amended 1000 5 7 (by decide) (by decide)

/-- C7 counterexample: the claim's wait sequence `1, 3, 9, ...` is wrong —
in the very first retry the code sleeps 3 seconds (`delay = delay * 3`
precedes `sleep(delay)`), never 1. -/
theorem c7_backoff_counterexample :
    fetch_bin (fun _ => false) (fun _ => 301) 2 = some (false, [3], 301) ∧
    (3 : Nat) ≠ 1 := by
  constructor
  · decide
  · decide

/-- A full single-end block (4 lines) starting at a block-head index emits
one line holding the name, sequence and quality lines (1, 2 and 4). -/
theorem reshape_go_block4 (i : Nat) (hi : i % 4 = 1) (a b c d : String)
    (rest : List String) :
    reshape_go 4 i [] (a :: b :: c :: d :: rest) =
      (String.intercalate "\t" [a, b, d] ++ "\n") ::
        reshape_go 4 (i + 4) [] rest := by
  rw [reshape_go_step_head 4 i [] a _ (by omega) (by omega) (by omega)]
  rw [reshape_go_step_even 4 (i + 1) _ b _ (by omega) (by omega)]
  rw [reshape_go_step_odd 4 (i + 1 + 1) _ c _ (by omega) (by omega)
    (by omega)]
  rw [reshape_go_step_emit 4 (i + 1 + 1 + 1) _ d _ (by omega) (by omega)]
  have he : i + 1 + 1 + 1 + 1 = i + 4 := by omega
  rw [he]
  simp

/-- A full paired-end block (8 lines) starting at a block-head index emits
one line holding lines 1, 2, 4, 6 and 8 (name, both sequences and both
qualities). -/
theorem reshape_go_block8 (i : Nat) (hi : i % 8 = 1)
    (a b c d e f g h : String) (rest : List String) :
    reshape_go 8 i [] (a :: b :: c :: d :: e :: f :: g :: h :: rest) =
      (String.intercalate "\t" [a, b, d, f, h] ++ "\n") ::
        reshape_go 8 (i + 8) [] rest := by
  rw [reshape_go_step_head 8 i [] a _ (by omega) (by omega) (by omega)]
  rw [reshape_go_step_even 8 (i + 1) _ b _ (by omega) (by omega)]
  rw [reshape_go_step_odd 8 (i + 1 + 1) _ c _ (by omega) (by omega)
    (by omega)]
  rw [reshape_go_step_even 8 (i + 1 + 1 + 1) _ d _ (by omega) (by omega)]
  rw [reshape_go_step_odd 8 (i + 1 + 1 + 1 + 1) _ e _ (by omega) (by omega)
    (by omega)]
  rw [reshape_go_step_even 8 (i + 1 + 1 + 1 + 1 + 1) _ f _ (by omega)
    (by omega)]
  rw [reshape_go_step_odd 8 (i + 1 + 1 + 1 + 1 + 1 + 1) _ g _ (by omega)
    (by omega) (by omega)]
  rw [reshape_go_step_emit 8 (i + 1 + 1 + 1 + 1 + 1 + 1 + 1) _ h _
    (by omega) (by omega)]
  have he : i + 1 + 1 + 1 + 1 + 1 + 1 + 1 + 1 = i + 8 := by omega
  rw [he]
  simp

/-- A truncated trailing single-end block (fewer than 4 lines) emits
nothing. -/
theorem reshape_go_tail4 (i : Nat) (hi : i % 4 = 1) (fl : List String) :
    ∀ (l : List String), l.length < 4 → reshape_go 4 i fl l = [] := by
  intro l hl
  rcases l with _ | ⟨a, l⟩
  · rfl
  rcases l with _ | ⟨b, l⟩
  · rw [reshape_go_step_head 4 i fl a _ (by omega) (by omega) (by omega)]
    rfl
  rcases l with _ | ⟨c, l⟩
  · rw [reshape_go_step_head 4 i fl a _ (by omega) (by omega) (by omega)]
    rw [reshape_go_step_even 4 (i + 1) _ b _ (by omega) (by omega)]
    rfl
  rcases l with _ | ⟨d, l⟩
  · rw [reshape_go_step_head 4 i fl a _ (by omega) (by omega) (by omega)]
    rw [reshape_go_step_even 4 (i + 1) _ b _ (by omega) (by omega)]
    rw [reshape_go_step_odd 4 (i + 1 + 1) _ c _ (by omega) (by omega)
      (by omega)]
    rfl
  · simp only [List.length_cons] at hl
    omega

/-- A truncated trailing paired-end block (fewer than 8 lines) emits
nothing. -/
theorem reshape_go_tail8 (i : Nat) (hi : i % 8 = 1) (fl : List String) :
    ∀ (l : List String), l.length < 8 → reshape_go 8 i fl l = [] := by
  intro l hl
  rcases l with _ | ⟨a, l⟩
  · rfl
  rw [reshape_go_step_head 8 i fl a _ (by omega) (by omega) (by omega)]
  rcases l with _ | ⟨b, l⟩
  · rfl
  rw [reshape_go_step_even 8 (i + 1) _ b _ (by omega) (by omega)]
  rcases l with _ | ⟨c, l⟩
  · rfl
  rw [reshape_go_step_odd 8 (i + 1 + 1) _ c _ (by omega) (by omega)
    (by omega)]
  rcases l with _ | ⟨d, l⟩
  · rfl
  rw [reshape_go_step_even 8 (i + 1 + 1 + 1) _ d _ (by omega) (by omega)]
  rcases l with _ | ⟨e, l⟩
  · rfl
  rw [reshape_go_step_odd 8 (i + 1 + 1 + 1 + 1) _ e _ (by omega) (by omega)
    (by omega)]
  rcases l with _ | ⟨f, l⟩
  · rfl
  rw [reshape_go_step_even 8 (i + 1 + 1 + 1 + 1 + 1) _ f _ (by omega)
    (by omega)]
  rcases l with _ | ⟨g, l⟩
  · rfl
  rw [reshape_go_step_odd 8 (i + 1 + 1 + 1 + 1 + 1 + 1) _ g _ (by omega)
    (by omega) (by omega)]
  rcases l with _ | ⟨h, l⟩
  · rfl
  · simp only [List.length_cons] at hl
    omega

/-- The single-end reshaping loop equals the complete-blocks map. -/
theorem reshape_go_chunks4 :
    ∀ (n : Nat) (l : List String) (i : Nat), l.length ≤ n → i % 4 = 1 →
      reshape_go 4 i [] l = (full_chunks 4 l).map (emit_block false) := by
  intro n
  induction n with
  | zero =>
    intro l i hl _
    have h0 : l = [] := List.length_eq_zero.mp (by omega)
    subst h0
    rw [full_chunks]
    simp [reshape_go]
  | succ n ih =>
    intro l i hl hi
    by_cases h4 : 4 ≤ l.length
    · rcases l with _ | ⟨a, l⟩
      · simp at h4
      rcases l with _ | ⟨b, l⟩
      · simp at h4
      rcases l with _ | ⟨c, l⟩
      · simp at h4
      rcases l with _ | ⟨d, l⟩
      · simp at h4
      rw [reshape_go_block4 i hi a b c d l]
      rw [full_chunks, dif_pos ⟨by norm_num, h4⟩]
      simp only [List.length_cons] at hl
      rw [ih l (i + 4) (by omega) (by omega)]
      simp [emit_block, block_fields]
    · rw [reshape_go_tail4 i hi [] l (by omega)]
      rw [full_chunks, dif_neg (by omega)]
      rfl

/-- The paired-end reshaping loop equals the complete-blocks map. -/
theorem reshape_go_chunks8 :
    ∀ (n : Nat) (l : List String) (i : Nat), l.length ≤ n → i % 8 = 1 →
      reshape_go 8 i [] l = (full_chunks 8 l).map (emit_block true) := by
  intro n
  induction n with
  | zero =>
    intro l i hl _
    have h0 : l = [] := List.length_eq_zero.mp (by omega)
    subst h0
    rw [full_chunks]
    simp [reshape_go]
  | succ n ih =>
    intro l i hl hi
    by_cases h8 : 8 ≤ l.length
    · rcases l with _ | ⟨a, l⟩
      · simp at h8
      rcases l with _ | ⟨b, l⟩
      · simp at h8
      rcases l with _ | ⟨c, l⟩
      · simp at h8
      rcases l with _ | ⟨d, l⟩
      · simp at h8
      rcases l with _ | ⟨e, l⟩
      · simp at h8
      rcases l with _ | ⟨f, l⟩
      · simp at h8
      rcases l with _ | ⟨g, l⟩
      · simp at h8
      rcases l with _ | ⟨h, l⟩
      · simp at h8
      rw [reshape_go_block8 i hi a b c d e f g h l]
      rw [full_chunks, dif_pos ⟨by norm_num, h8⟩]
      simp only [List.length_cons] at hl
      rw [ih l (i + 8) (by omega) (by omega)]
      simp [emit_block, block_fields]
    · rw [reshape_go_tail8 i hi [] l (by omega)]
      rw [full_chunks, dif_neg (by omega)]
      rfl

/-- C9: the reshaper splits the raw payload into lines and, for record
block size 4 (single-end) or 8 (paired-end), emits exactly one
tab-separated line per complete block — the block's read name, mate-1
sequence, mate-1 quality and, if paired, mate-2 sequence and mate-2
quality, in that order — while any incomplete trailing block is omitted. -/
theorem c9_reshaper (pairedtag : Bool) (fastq : String) :
    reshape pairedtag fastq =
      (full_chunks (last_line pairedtag) (py_split fastq '\n')).map
        (emit_block pairedtag) := by
  rcases pairedtag with _ | _
  · rw [reshape]
    exact reshape_go_chunks4 (py_split fastq '\n').length
      (py_split fastq '\n') 1 (le_refl _) rfl
  · rw [reshape]
    exact reshape_go_chunks8 (py_split fastq '\n').length
      (py_split fastq '\n') 1 (le_refl _) rfl

end Strandedness
